import Mathlib

/-!
Shallow embedding of `manual_prune/finetune.py` (iterative filter pruning of a
convolutional classifier) and proofs about it.

Conventions of the embedding:
- Python float scores are modelled as elements of a linear ordered field
  (instantiated at `ℚ` for concrete evaluation) where only field arithmetic
  and ordering matter, and as reals (`ℝ`) where a square root is taken
  (`normalize_ranks_per_layer`).
- A Python `dict` is modelled as an association list in insertion order;
  assignment `d[k] = v` is `setK` (update in place if the key is present,
  append otherwise), and `k in d` / `d[k]` are `List.lookup`.
- `heapq.nsmallest(n, data, key)` decorates each element with the pair
  (key, arrival index) and selects by lexicographic order on those pairs;
  it is modelled by sorting the enumerated list by that order and taking `n`.
  `sorted` / `list.sort` are modelled by `List.insertionSort`, a stable sort
  like Python's.
- A 4-d activation tensor of shape (batch, channel, height, width) is
  modelled per output channel: `Tensor4.chans` lists, for each channel, the
  flattened (batch × height × width) values, so `mean(dim=(0, 2, 3))` is the
  per-channel sum divided by the channel's element count.
- Python attribute assignment on an object is modelled as `setK` on a
  string-keyed attribute dictionary, which is what makes the
  `required_grad` / `requires_grad` misspelling observable.
- Code paths that raise (`TypeError`, `NameError`) are modelled with
  `Except String`.
-/

namespace Finetune

/-- Python dict assignment `d[k] = v` on an association list kept in
insertion order: overwrite the first binding of `k` if present, otherwise
append a new binding at the end. -/
def setK {κ ν : Type} [DecidableEq κ] : List (κ × ν) → κ → ν → List (κ × ν)
  | [], k, v => [(k, v)]
  | (k', v') :: r, k, v =>
      if k' = k then (k, v) :: r else (k', v') :: setK r k v

/-! ## The backbone: `self.model.features._modules`

Only the layer kind and, for convolutions, `out_channels` matter for the
claims below; everything else a `Conv2d` carries is irrelevant to the
control flow being verified. -/

/-- One entry of the backbone's module list. -/
inductive Module : Type
  | conv2d (out_channels : ℕ)
  | other
  deriving DecidableEq

/-- `isinstance(module, torch.nn.modules.conv.Conv2d)`. -/
def Module.isConv : Module → Bool
  | .conv2d _ => true
  | .other => false

/-- `module.out_channels` of a convolutional layer. -/
def Module.outCh : Module → ℕ
  | .conv2d c => c
  | .other => 0

/-! ## `FilterPrunner` state and `compute_rank` -/

/-- A 4-d tensor, viewed per output channel: entry `c` of `chans` holds the
flattened (batch, height, width) values of channel `c`. -/
structure Tensor4 (α : Type) : Type where
  chans : List (List α)
  deriving DecidableEq

/-- The tensor default used for out-of-range activation indexing. -/
def emptyT {α : Type} : Tensor4 α := ⟨[]⟩

/-- Elementwise sum of two per-filter score vectors (`+=` on tensors). -/
def addVec {α : Type} [Add α] (v w : List α) : List α :=
  List.zipWith (· + ·) v w

/-- `torch.FloatTensor(n).zero_()`: the zero vector of length `n`. -/
def zeros {α : Type} [Zero α] (n : ℕ) : List α :=
  List.replicate n 0

/-- `(activation * grad).mean(dim=(0, 2, 3))`: per channel, the mean over
batch, height and width of the elementwise product. -/
def taylor {α : Type} [LinearOrderedField α] (a g : Tensor4 α) : List α :=
  List.zipWith (fun ca cg => (List.zipWith (· * ·) ca cg).sum / (ca.length : α)) a.chans g.chans

/-- The mutable state of a `FilterPrunner` instance. -/
structure FilterPrunnerState (α : Type) : Type where
  filter_ranks : List (ℕ × List α)
  activations : List (Tensor4 α)
  grad_index : ℕ
  activation_to_layer : ℕ → ℕ

/-- `FilterPrunner.reset`: `self.filter_ranks = {}`. -/
def FilterPrunner.reset {α : Type} (st : FilterPrunnerState α) : FilterPrunnerState α :=
  { st with filter_ranks := [] }

/-- `FilterPrunner.compute_rank(grad)`: the gradient callback. Pairs the
incoming gradient with the activation at index
`len(activations) - grad_index - 1`, accumulates the per-filter Taylor
importance into `filter_ranks[activation_index]` (zero-initialising the
entry on first touch, sized to the activation's channel count), and
increments `grad_index`. -/
def compute_rank {α : Type} [LinearOrderedField α]
    (st : FilterPrunnerState α) (grad : Tensor4 α) : FilterPrunnerState α :=
  let ai := st.activations.length - st.grad_index - 1
  let a := st.activations.getD ai emptyT
  let t := taylor a grad
  let cur := (List.lookup ai st.filter_ranks).getD (zeros a.chans.length)
  { st with
      filter_ranks := setK st.filter_ranks ai (addVec cur t)
      grad_index := st.grad_index + 1 }

/-- One ranking batch: the forward pass stores this batch's conv outputs in
`activations` (forward order) and resets `grad_index` to 0; the backward
pass then fires `compute_rank` once per stored activation, with the
gradients arriving in reverse forward order (`grads[k]` is the argument of
the k-th callback). -/
def runBatch {α : Type} [LinearOrderedField α] (st : FilterPrunnerState α)
    (acts grads : List (Tensor4 α)) : FilterPrunnerState α :=
  grads.foldl compute_rank { st with activations := acts, grad_index := 0 }

/-- One ranking pass: a sequence of batches, each an (activations, reversed
gradients) pair, folded through `runBatch`. -/
def runPass {α : Type} [LinearOrderedField α] (st : FilterPrunnerState α)
    (batches : List (List (Tensor4 α) × List (Tensor4 α))) : FilterPrunnerState α :=
  batches.foldl (fun s b => runBatch s b.1 b.2) st

/-- Sum of a list of per-filter vectors, starting from the zero vector of
length `n`. -/
def vecSum {α : Type} [LinearOrderedField α] (n : ℕ) (ts : List (List α)) : List α :=
  ts.foldl addVec (zeros n)

/-! ## `FilterPrunner.lowest_ranking_filters` -/

/-- The keys of `filter_ranks` as iterated by
`for i in sorted(self.filter_ranks.keys())`. -/
def sortedKeys {α : Type} (st : FilterPrunnerState α) : List ℕ :=
  (st.filter_ranks.map Prod.fst).insertionSort (· ≤ ·)

/-- `self.filter_ranks[i]`. -/
def vecAt {α : Type} (st : FilterPrunnerState α) (i : ℕ) : List α :=
  (List.lookup i st.filter_ranks).getD []

/-- The flattened `data` list built by `lowest_ranking_filters`: one triple
`(activation_to_layer[i], j, filter_ranks[i][j])` per key `i` (ascending)
and filter position `j` (ascending). -/
def enumTriples {α : Type} [LinearOrderedField α] (st : FilterPrunnerState α) :
    List (ℕ × ℕ × α) :=
  (sortedKeys st).flatMap fun i =>
    (List.range (vecAt st i).length).map fun j =>
      (st.activation_to_layer i, j, (vecAt st i).getD j 0)

/-- The selection order of `heapq.nsmallest(num, data, itemgetter(2))`: the
implementation decorates each element with (key, arrival index) and compares
those pairs lexicographically. -/
def decoR {α : Type} [LinearOrderedField α] (a b : ℕ × (ℕ × ℕ × α)) : Prop :=
  a.2.2.2 < b.2.2.2 ∨ (a.2.2.2 = b.2.2.2 ∧ a.1 ≤ b.1)

instance decoRDecidable {α : Type} [LinearOrderedField α] :
    DecidableRel (@decoR α _) := fun _ _ => by
  unfold decoR
  infer_instance

instance decoRTotal {α : Type} [LinearOrderedField α] :
    IsTotal (ℕ × (ℕ × ℕ × α)) (decoR) where
  total a b := by
    unfold decoR
    rcases lt_trichotomy a.2.2.2 b.2.2.2 with h | h | h
    · exact Or.inl (Or.inl h)
    · rcases Nat.le_total a.1 b.1 with hi | hi
      · exact Or.inl (Or.inr ⟨h, hi⟩)
      · exact Or.inr (Or.inr ⟨h.symm, hi⟩)
    · exact Or.inr (Or.inl h)

instance decoRTrans {α : Type} [LinearOrderedField α] :
    IsTrans (ℕ × (ℕ × ℕ × α)) (decoR) where
  trans a b c hab hbc := by
    unfold decoR at *
    rcases hab with hab | ⟨hab, hab2⟩
    · rcases hbc with hbc | ⟨hbc, _⟩
      · exact Or.inl (hab.trans hbc)
      · exact Or.inl (hbc ▸ hab)
    · rcases hbc with hbc | ⟨hbc, hbc2⟩
      · exact Or.inl (hab ▸ hbc)
      · exact Or.inr ⟨hab.trans hbc, hab2.trans hbc2⟩

/-- `heapq.nsmallest(num, data, itemgetter(2))` on the decorated list, kept
decorated: the enumerated triples, sorted by (score, arrival index), first
`num` kept. -/
def lrfDecorated {α : Type} [LinearOrderedField α] (st : FilterPrunnerState α) (num : ℕ) :
    List (ℕ × (ℕ × ℕ × α)) :=
  ((enumTriples st).enum.insertionSort decoR).take num

/-- `FilterPrunner.lowest_ranking_filters(num)`. -/
def lowest_ranking_filters {α : Type} [LinearOrderedField α]
    (st : FilterPrunnerState α) (num : ℕ) : List (ℕ × ℕ × α) :=
  (lrfDecorated st num).map Prod.snd

/-- Total number of per-filter scores held by the rank table. -/
def totalFilters {α : Type} (st : FilterPrunnerState α) : ℕ :=
  (st.filter_ranks.map fun e => e.2.length).sum

/-! ## `FilterPrunner.normalize_ranks_per_layer` -/

/-- Sum of squares of a score vector (`torch.sum(v*v)`). -/
def sumSq (v : List ℝ) : ℝ :=
  (v.map fun x => x * x).sum

/-- `v = torch.abs(ranks); v = v / np.sqrt(torch.sum(v*v))` for one layer's
score vector. -/
noncomputable def normVec (v : List ℝ) : List ℝ :=
  let w := v.map fun x => |x|
  w.map fun y => y / Real.sqrt (sumSq w)

/-- `FilterPrunner.normalize_ranks_per_layer()`: every stored score vector
is replaced by its normalised form, keys untouched. -/
noncomputable def normalize_ranks_per_layer (st : FilterPrunnerState ℝ) :
    FilterPrunnerState ℝ :=
  { st with filter_ranks := st.filter_ranks.map fun e => (e.1, normVec e.2) }

/-! ## `FilterPrunner.get_prunning_plan` -/

/-- The iteration order of a Python dict populated by
`filters_to_prune_per_layer[l].append(f)`: keys in first-occurrence order. -/
def layersFirstOccs : List ℕ → List ℕ
  | [] => []
  | l :: ls => l :: layersFirstOccs (ls.filter fun l2 => l2 ≠ l)
termination_by ms => ms.length
decreasing_by
  simp only [List.length_cons]
  exact Nat.lt_succ_of_le (List.length_filter_le _ _)

/-- The filter indices grouped under layer `l`, in arrival order. -/
def filtersOfLayer {α : Type} (l : ℕ) (ts : List (ℕ × ℕ × α)) : List ℕ :=
  (ts.filter fun t => t.1 == l).map fun t => t.2.1

/-- The in-place adjustment loop
`filters_to_prune_per_layer[l][i] -= i` over a (sorted) index list, with
`k` the position of the list's head in the original list. -/
def adjustIdx : List ℕ → ℕ → List ℕ
  | [], _ => []
  | s :: t, k => (s - k) :: adjustIdx t (k + 1)

/-- One layer's part of the plan: sort the selected filter indices
ascending, then subtract from each its position. -/
def planLayer (fs : List ℕ) : List ℕ :=
  adjustIdx (fs.insertionSort (· ≤ ·)) 0

/-- `FilterPrunner.get_prunning_plan` after the call to
`lowest_ranking_filters`: group the triples by layer (dict insertion
order), adjust each layer's sorted index list, and flatten back to
(layer, adjusted index) pairs. -/
def planTriples {α : Type} (ts : List (ℕ × ℕ × α)) : List (ℕ × ℕ) :=
  (layersFirstOccs (ts.map fun t => t.1)).flatMap fun l =>
    (planLayer (filtersOfLayer l ts)).map fun f => (l, f)

/-- `FilterPrunner.get_prunning_plan(num_filters_to_prune)`. -/
def get_prunning_plan {α : Type} [LinearOrderedField α]
    (st : FilterPrunnerState α) (num : ℕ) : List (ℕ × ℕ) :=
  planTriples (lowest_ranking_filters st num)

/-- The plan entries that target layer `l`, in plan order. -/
def planFor (l : ℕ) (plan : List (ℕ × ℕ)) : List ℕ :=
  (plan.filter fun p => p.1 == l).map fun p => p.2

/-- Sequential single-filter surgery on one layer: remove the filter at
each listed index in order, each removal shrinking the layer. -/
def seqRemove {β : Type} (layer : List β) (idxs : List ℕ) : List β :=
  idxs.foldl List.eraseIdx layer

/-- Simultaneous removal from the original layer of every position
satisfying `p`. -/
def removeIdxs {β : Type} : List β → (ℕ → Bool) → List β
  | [], _ => []
  | a :: L, p => (if p 0 then [] else [a]) ++ removeIdxs L fun i => p (i + 1)

/-! ## `FilterPrunner.forward` (the bug behind claim C5)

`forward` initialises `activation_index = []` (an empty list — the intended
value is the integer 0).  At the first convolutional layer it executes
`self.activation_to_layer[activation_index] = layer`, which raises
`TypeError: unhashable type: list`; even if it got past that,
`activation_index += 1` on a list raises `TypeError` as well. -/

/-- The runtime value bound to the Python variable `activation_index`. -/
inductive PyIdx : Type
  | pyList (xs : List ℕ)
  | pyInt (n : ℕ)
  deriving DecidableEq

/-- `self.activation_to_layer[activation_index] = layer`: dict assignment
requires a hashable key; a list is not hashable. -/
def a2lAssign (key : PyIdx) (layer : ℕ) (d : List (ℕ × ℕ)) :
    Except String (List (ℕ × ℕ)) :=
  match key with
  | .pyInt n => .ok (setK d n layer)
  | .pyList _ => .error "TypeError: unhashable type: list"

/-- `activation_index += 1`: integer increment, or a `TypeError` when the
value is a list (`list += int` is not defined). -/
def pyIAdd (v : PyIdx) (n : ℕ) : Except String PyIdx :=
  match v with
  | .pyInt m => .ok (.pyInt (m + n))
  | .pyList _ => .error "TypeError: int object is not iterable"

/-- The loop-carried state of `FilterPrunner.forward`: how many activations
have been stored, the position-to-layer dict, and the value of
`activation_index`. Tensor values are irrelevant to the claim and omitted. -/
structure ForwardSt : Type where
  activations : ℕ
  a2l : List (ℕ × ℕ)
  activation_index : PyIdx
  deriving DecidableEq

/-- The body of `forward`'s enumeration loop over
`self.model.features._modules.items()`, layer counting from `layer`. -/
def forwardGo : List Module → ℕ → ForwardSt → Except String ForwardSt
  | [], _, s => .ok s
  | m :: ms, layer, s =>
    if m.isConv then
      let s1 := { s with activations := s.activations + 1 }
      match a2lAssign s1.activation_index layer s1.a2l with
      | .error e => .error e
      | .ok d =>
        match pyIAdd s1.activation_index 1 with
        | .error e => .error e
        | .ok idx => forwardGo ms (layer + 1) { s1 with a2l := d, activation_index := idx }
    else forwardGo ms (layer + 1) s

/-- `FilterPrunner.forward(x)`: resets the per-pass lists, sets
`activation_index = []`, and runs the layer loop; `.ok` stands for reaching
the final `return self.model.classifier(...)` line. -/
def FilterPrunner.forward (mods : List Module) : Except String ForwardSt :=
  forwardGo mods 0 { activations := 0, a2l := [], activation_index := .pyList [] }

/-! ## `PrunningFineTuner.train_batch` (claim C6)

In ranking mode the loss line reads `sekf.criterion(...)` — `sekf` is an
unresolvable name (a typo for `self`), so a `NameError` is raised before
`backward()` can run.  The non-ranking branch is well formed. -/

/-- The externally visible steps of one training batch. -/
inductive TrainEvt : Type
  | zero_grad
  | prunner_forward
  | model_forward
  | loss_backward
  | optimizer_step
  deriving DecidableEq

/-- The names bound in the scope of `train_batch`'s body. -/
def trainBatchScope : List String :=
  ["self", "optimizer", "batch", "label", "rank_filters", "input", "output"]

/-- `PrunningFineTuner.train_batch(optimizer, batch, label, rank_filters)`:
the completed run's step list, or the exception that aborted it.
`prunnerForward` is the outcome of the `self.prunner.forward(input)` call
the ranking branch performs first. -/
def train_batch (prunnerForward : Except String Unit) (rank_filters : Bool) :
    Except String (List TrainEvt) :=
  if rank_filters then
    match prunnerForward with
    | .error e => .error e
    | .ok _ =>
        if trainBatchScope.contains "sekf" then
          .ok [TrainEvt.zero_grad, TrainEvt.prunner_forward, TrainEvt.loss_backward]
        else
          .error "NameError: name sekf is not defined"
  else
    .ok [TrainEvt.zero_grad, TrainEvt.model_forward, TrainEvt.loss_backward,
         TrainEvt.optimizer_step]

/-! ## `PrunningFineTuner.get_candidates_to_prune` (claim C9)

The method runs `self.prunner.reset()`, then the ranking epoch, then
`normalize_ranks_per_layer()`; its `return` line references the undefined
name `num_filter_to_prune` (the parameter is `num_filters_to_prune`), which
raises `NameError`.  The ranking epoch is abstracted as a state
transformer. -/

/-- `PrunningFineTuner.get_candidates_to_prune(num_filters_to_prune)`:
returns the prunner state as it stands at the `return` line, paired with
the outcome of the `return` expression itself. -/
noncomputable def get_candidates_to_prune
    (rankingEpoch : FilterPrunnerState ℝ → FilterPrunnerState ℝ)
    (st : FilterPrunnerState ℝ) (_num : ℕ) :
    FilterPrunnerState ℝ × Except String (List (ℕ × ℕ)) :=
  let st1 := FilterPrunner.reset st
  let st2 := rankingEpoch st1
  let st3 := normalize_ranks_per_layer st2
  (st3, Except.error "NameError: name num_filter_to_prune is not defined")

/-! ## `PrunningFineTuner.total_num_filters` (claim C7)

The Python loop body reads `fitlers = filters + module.out_channels`:
the sum is assigned to the misspelled fresh variable `fitlers`, while the
returned accumulator `filters` is never updated.  The fold below carries
both variables. -/

/-- One iteration of the `total_num_filters` loop over `(filters, fitlers)`. -/
def tnfStep (acc : ℕ × ℕ) (m : Module) : ℕ × ℕ :=
  if m.isConv then (acc.1, acc.1 + m.outCh) else acc

/-- `PrunningFineTuner.total_num_filters`: initialise `filters = 0`, run the
loop, return `filters`. -/
def total_num_filters (mods : List Module) : ℕ :=
  (mods.foldl tnfStep (0, 0)).1

/-- What the spec says `total_num_filters` computes: the sum of
`out_channels` over the convolutional layers. -/
def specTotalFilters (mods : List Module) : ℕ :=
  ((mods.filter Module.isConv).map Module.outCh).sum

/-- The pruning budget computed at the top of `PrunningFineTuner.prune`:
`iterations = int(float(n) / 512)` then `iterations = int(iterations * 2.0 / 3)`,
with `n = total_num_filters()`.  Both `int(...)` casts are floors of
non-negative values, i.e. natural division. -/
def pruneIterations (mods : List Module) : ℕ :=
  (total_num_filters mods / 512) * 2 / 3

/-! ## Model persistence at the end of `prune` (claim C8)

`torch.save(model.state_dict, "model_prunned")` passes the *bound method*
`state_dict` to `torch.save` — the trailing call parentheses are missing —
so the object serialised into the artifact is a method object, not the
parameter dictionary. -/

/-- A Python object as far as the persistence path can observe it. -/
inductive PyObj : Type
  | boundMethod (self_params : List (String × ℚ)) (methodName : String)
  | dict (entries : List (String × ℚ))
  deriving DecidableEq

/-- The model as the persistence path sees it: its parameter state. -/
structure TorchModel : Type where
  params : List (String × ℚ)

/-- Attribute access `model.state_dict` (no call): the bound method object. -/
def stateDictAttr (m : TorchModel) : PyObj :=
  .boundMethod m.params "state_dict"

/-- The call `model.state_dict()`: the parameter dictionary. -/
def stateDictCall (m : TorchModel) : PyObj :=
  .dict m.params

/-- The object `PrunningFineTuner.prune` hands to `torch.save` on its last
line: `model.state_dict`, uncalled. -/
def pruneSavedObject (m : TorchModel) : PyObj :=
  stateDictAttr m

/-! ## The backbone freeze loop of `Model.__init__` / `MobileModel.__init__`
(claim C10)

`for param in self.features.parameters(): param.required_grad = False`
assigns the misspelled attribute `required_grad`; Python object attribute
assignment silently creates that new attribute and leaves `requires_grad`
untouched. -/

/-- A parameter tensor as an attribute dictionary (Python objects accept
assignment to arbitrary attribute names). -/
structure PyParam : Type where
  attrs : List (String × Bool)
  deriving DecidableEq

/-- Python `getattr p n`, as far as Bool-valued attributes go. -/
def getattrB (p : PyParam) (n : String) : Option Bool :=
  List.lookup n p.attrs

/-- Python `setattr p n v`. -/
def setattrB (p : PyParam) (n : String) (v : Bool) : PyParam :=
  ⟨setK p.attrs n v⟩

/-- The loop body in both constructors: `param.required_grad = False`. -/
def freezeLoopBody (p : PyParam) : PyParam :=
  setattrB p "required_grad" false

/-- The whole freeze loop over the backbone's parameters. -/
def modelInitFreeze (ps : List PyParam) : List PyParam :=
  ps.map freezeLoopBody

/-- A freshly loaded pretrained parameter: `requires_grad` is `True`. -/
def pretrainedParam : PyParam :=
  ⟨[("requires_grad", true)]⟩

/-- A small two-layer rank table (keys inserted in descending order, the
way `compute_rank` populates them) used to exercise the selection path. -/
def sampleState : FilterPrunnerState ℚ :=
  ⟨[(1, [5, 2]), (0, [2])], [], 0, fun i => i⟩

/-- The same rank table carried by different activation bookkeeping. -/
def sampleState2 : FilterPrunnerState ℚ :=
  ⟨[(1, [5, 2]), (0, [2])], [emptyT], 7, fun i => i⟩

/-- A ranking batch for a one-conv-layer network: one activation tensor
(one channel, two flattened positions) and one gradient tensor. -/
def sampleBatch1 : List (Tensor4 ℚ) × List (Tensor4 ℚ) :=
  ([⟨[[2, 4]]⟩], [⟨[[1, 3]]⟩])

/-- A second ranking batch of the same shape. -/
def sampleBatch2 : List (Tensor4 ℚ) × List (Tensor4 ℚ) :=
  ([⟨[[1, 1]]⟩], [⟨[[2, 2]]⟩])

/-- A two-batch ranking pass. -/
def sampleBatches : List (List (Tensor4 ℚ) × List (Tensor4 ℚ)) :=
  [sampleBatch1, sampleBatch2]

/-- A pristine prunner state. -/
def emptyPrunnerState : FilterPrunnerState ℚ :=
  ⟨[], [], 0, fun j => j⟩

/-! # Lemmas and theorems -/

theorem lookup_setK_self {κ ν : Type} [DecidableEq κ] (l : List (κ × ν)) (k : κ) (v : ν) :
    List.lookup k (setK l k v) = some v := by
  induction l with
  | nil => simp [setK, List.lookup]
  | cons hd tl ih =>
      obtain ⟨k', v'⟩ := hd
      by_cases hk : k' = k
      · simp [setK, hk, List.lookup]
      · simp only [setK, if_neg hk, List.lookup]
        have : (k == k') = false := by
          simp [beq_iff_eq]
          exact fun h => hk h.symm
        simp [this, ih]

theorem lookup_setK_ne {κ ν : Type} [DecidableEq κ] (l : List (κ × ν)) (k k₀ : κ) (v : ν)
    (hne : k₀ ≠ k) : List.lookup k₀ (setK l k v) = List.lookup k₀ l := by
  have hbk : (k₀ == k) = false := by simp [beq_iff_eq, hne]
  induction l with
  | nil => simp [setK, List.lookup, hbk]
  | cons hd tl ih =>
      obtain ⟨k', v'⟩ := hd
      by_cases hk : k' = k
      · subst hk
        simp [setK, List.lookup, hbk]
      · simp only [setK, if_neg hk, List.lookup]
        by_cases h0 : k₀ = k'
        · simp [h0]
        · have hbk0 : (k₀ == k') = false := by simp [beq_iff_eq, h0]
          simp [hbk0, ih]

theorem sumSq_nonneg (v : List ℝ) : 0 ≤ sumSq v := by
  induction v with
  | nil => simp [sumSq]
  | cons x v ih =>
      simp only [sumSq, List.map_cons, List.sum_cons]
      exact add_nonneg (mul_self_nonneg x) ih

theorem sumSq_pos (v : List ℝ) (h : ∃ x ∈ v, x ≠ 0) : 0 < sumSq v := by
  induction v with
  | nil => simp at h
  | cons x v ih =>
      simp only [sumSq, List.map_cons, List.sum_cons]
      rcases h with ⟨y, hy, hy0⟩
      rcases List.mem_cons.mp hy with rfl | hy
      · exact add_pos_of_pos_of_nonneg (mul_self_pos.mpr hy0) (sumSq_nonneg v)
      · exact add_pos_of_nonneg_of_pos (mul_self_nonneg x) (ih ⟨y, hy, hy0⟩)

theorem sumSq_map_abs (v : List ℝ) : sumSq (v.map fun x => |x|) = sumSq v := by
  induction v with
  | nil => rfl
  | cons x v ih =>
      simp only [sumSq, List.map_cons, List.sum_cons] at *
      rw [abs_mul_abs_self, ih]

theorem sumSq_map_div (v : List ℝ) (c : ℝ) :
    sumSq (v.map fun y => y / c) = sumSq v / (c * c) := by
  induction v with
  | nil => simp [sumSq]
  | cons x v ih =>
      simp only [sumSq, List.map_cons, List.sum_cons] at *
      rw [ih]
      by_cases hc : c = 0
      · simp [hc]
      · field_simp

theorem normVec_eq (v : List ℝ) :
    normVec v = v.map fun x => |x| / Real.sqrt (sumSq v) := by
  unfold normVec
  dsimp only
  rw [sumSq_map_abs, List.map_map]
  rfl

theorem sumSq_normVec (v : List ℝ) (h : ∃ x ∈ v, x ≠ 0) : sumSq (normVec v) = 1 := by
  have hs : 0 < sumSq v := sumSq_pos v h
  unfold normVec
  rw [sumSq_map_div, sumSq_map_abs, Real.mul_self_sqrt hs.le, div_self hs.ne']

theorem tnfStep_fst (acc : ℕ × ℕ) (m : Module) : (tnfStep acc m).1 = acc.1 := by
  cases m <;> simp [tnfStep, Module.isConv]

theorem total_num_filters_foldl (mods : List Module) (acc : ℕ × ℕ) :
    (mods.foldl tnfStep acc).1 = acc.1 := by
  induction mods generalizing acc with
  | nil => rfl
  | cons m ms ih => rw [List.foldl_cons, ih, tnfStep_fst]

theorem forwardGo_raises (mods : List Module) :
    ∀ (layer : ℕ) (s : ForwardSt) (xs : List ℕ),
      s.activation_index = .pyList xs → (∃ m ∈ mods, m.isConv = true) →
      forwardGo mods layer s = .error "TypeError: unhashable type: list" := by
  induction mods with
  | nil =>
      rintro layer s xs hs ⟨m, hm, _⟩
      simp at hm
  | cons m ms ih =>
      intro layer s xs hs hex
      by_cases hc : m.isConv = true
      · simp [forwardGo, hc, a2lAssign, hs]
      · obtain ⟨m', hm', hc'⟩ := hex
        rcases List.mem_cons.mp hm' with rfl | hm'
        · exact absurd hc' hc
      /- the first conv layer lies further down the list -/
        · have hrec := ih (layer + 1) s xs hs ⟨m', hm', hc'⟩
          simpa [forwardGo, hc] using hrec

theorem removeIdxs_false {β : Type} (L : List β) :
    removeIdxs L (fun _ => false) = L := by
  induction L with
  | nil => rfl
  | cons a L ih => simpa [removeIdxs] using ih

theorem removeIdxs_congr {β : Type} (L : List β) {p q : ℕ → Bool}
    (h : ∀ i, p i = q i) : removeIdxs L p = removeIdxs L q := by
  exact congrArg (removeIdxs L) (funext h)

/-- Removing position `s` first and then applying a simultaneous removal in
the shifted coordinates equals one simultaneous removal that also covers
`s`. -/
theorem removeIdxs_eraseIdx {β : Type} (L : List β) :
    ∀ (s : ℕ) (q : ℕ → Bool),
      removeIdxs (L.eraseIdx s) (fun j => q (if j < s then j else j + 1)) =
        removeIdxs L (fun i => (i == s) || q i) := by
  induction L with
  | nil => intro s q; rfl
  | cons a L ih =>
      intro s q
      cases s with
      | zero => rfl
      | succ s =>
          have h1 : (a :: L).eraseIdx (s + 1) = a :: L.eraseIdx s := rfl
          rw [h1]
          simp only [removeIdxs]
          have e1 : ∀ i : ℕ, (fun j => q (if j < s + 1 then j else j + 1)) (i + 1)
              = (fun j : ℕ => q (j + 1)) (if i < s then i else i + 1) := by
            intro i
            by_cases hi : i < s
            · have hi1 : i + 1 < s + 1 := Nat.succ_lt_succ hi
              simp [hi, hi1]
            · have hi1 : ¬(i + 1 < s + 1) := fun hc => hi (Nat.lt_of_succ_lt_succ hc)
              simp [hi, hi1]
          refine congrArg₂ (· ++ ·) (by simp) ?_
          calc removeIdxs (L.eraseIdx s) (fun i => (fun j => q (if j < s + 1 then j else j + 1)) (i + 1))
              = removeIdxs (L.eraseIdx s)
                  (fun i => (fun j : ℕ => q (j + 1)) (if i < s then i else i + 1)) :=
                removeIdxs_congr _ e1
            _ = removeIdxs L (fun i => (i == s) || q (i + 1)) := ih s (fun j => q (j + 1))
            _ = removeIdxs L (fun i => ((i + 1 == s + 1) || q (i + 1))) :=
                removeIdxs_congr _ fun i => by simp [Nat.succ_inj]

theorem adjustIdx_succ (t : List ℕ) :
    ∀ k, adjustIdx t (k + 1) = adjustIdx (t.map fun x => x - 1) k := by
  induction t with
  | nil => intro k; rfl
  | cons x t ih =>
      intro k
      simp only [adjustIdx, List.map_cons]
      refine congrArg₂ (· :: ·) (by omega) (ih (k + 1))

theorem decide_mem_cons (i s : ℕ) (t : List ℕ) :
    (decide (i ∈ s :: t)) = ((i == s) || decide (i ∈ t)) := by
  by_cases h : i = s
  · simp [h]
  · simp [h, List.mem_cons]

/-- Core of claim C1: for a strictly ascending index list `ss`, removing
positions `ss[0], ss[1]-1, ss[2]-2, …` one at a time from the shrinking
list equals removing the positions in `ss` simultaneously from the
original list. -/
theorem seqRemove_adjustIdx {β : Type} :
    ∀ (n : ℕ) (ss : List ℕ), ss.length ≤ n → ss.Sorted (· < ·) → ∀ L : List β,
      seqRemove L (adjustIdx ss 0) = removeIdxs L fun i => decide (i ∈ ss) := by
  intro n
  induction n with
  | zero =>
      intro ss hlen _ L
      have : ss = [] := List.eq_nil_of_length_eq_zero (Nat.le_zero.mp hlen)
      subst this
      exact (removeIdxs_false L).symm
  | succ n ih =>
      intro ss hlen hsort L
      cases ss with
      | nil => exact (removeIdxs_false L).symm
      | cons s t =>
          obtain ⟨hst, htsort⟩ := List.sorted_cons.mp hsort
          have hpos : ∀ x ∈ t, 1 ≤ x := fun x hx => Nat.one_le_iff_ne_zero.mpr
            (Nat.pos_iff_ne_zero.mp (Nat.lt_of_le_of_lt (Nat.zero_le s) (hst x hx)))
          have hsort1 : (t.map fun x => x - 1).Sorted (· < ·) := by
            refine List.pairwise_map.mpr ?_
            refine htsort.imp_of_mem ?_
            intro a b ha _ hab
            have h1 : 1 ≤ a := hpos a ha
            omega
          have hadj : adjustIdx (s :: t) 0 = s :: adjustIdx (t.map fun x => x - 1) 0 := by
            simp only [adjustIdx, Nat.sub_zero]
            rw [adjustIdx_succ]
          rw [hadj]
          have hfold : seqRemove L (s :: adjustIdx (t.map fun x => x - 1) 0)
              = seqRemove (L.eraseIdx s) (adjustIdx (t.map fun x => x - 1) 0) := rfl
          rw [hfold]
          have hlen1 : (t.map fun x => x - 1).length ≤ n := by
            simpa using Nat.lt_succ_iff.mp (Nat.lt_of_lt_of_le (by simp) hlen)
          rw [ih _ hlen1 hsort1 (L.eraseIdx s)]
          have hpred : ∀ j, (decide (j ∈ t.map fun x => x - 1))
              = (fun i => decide (i ∈ t)) (if j < s then j else j + 1) := by
            intro j
            by_cases hj : j < s
            · have hL : ¬(j ∈ t.map fun x => x - 1) := by
                intro hm
                obtain ⟨x, hx, hxe⟩ := List.mem_map.mp hm
                have := hst x hx
                omega
              have hR : ¬(j ∈ t) := fun hm => by
                have := hst j hm
                omega
              simp [hj, hL, hR]
            · have hiff : (j ∈ t.map fun x => x - 1) ↔ (j + 1 ∈ t) := by
                constructor
                · intro hm
                  obtain ⟨x, hx, hxe⟩ := List.mem_map.mp hm
                  have h1 : 1 ≤ x := hpos x hx
                  have : x = j + 1 := by omega
                  exact this ▸ hx
                · intro hm
                  exact List.mem_map.mpr ⟨j + 1, hm, by omega⟩
              show decide (j ∈ t.map fun x => x - 1)
                  = decide ((if j < s then j else j + 1) ∈ t)
              rw [if_neg hj]
              exact decide_eq_decide.mpr hiff
          rw [removeIdxs_congr _ hpred, removeIdxs_eraseIdx L s fun i => decide (i ∈ t)]
          refine removeIdxs_congr _ ?_
          intro i
          exact (decide_mem_cons i s t).symm

theorem planLayer_seqRemove {β : Type} (fs : List ℕ) (hnd : fs.Nodup) (L : List β) :
    seqRemove L (planLayer fs) = removeIdxs L fun i => decide (i ∈ fs) := by
  unfold planLayer
  have hperm : (fs.insertionSort (· ≤ ·)).Perm fs := List.perm_insertionSort _ fs
  have hndg : (fs.insertionSort (· ≤ ·)).Nodup := hnd.perm hperm.symm
  have hsort : (fs.insertionSort (· ≤ ·)).Sorted (· < ·) :=
    (List.sorted_insertionSort _ fs).lt_of_le hndg
  rw [seqRemove_adjustIdx (fs.insertionSort (· ≤ ·)).length _ le_rfl hsort L]
  refine removeIdxs_congr _ ?_
  intro i
  exact decide_eq_decide.mpr hperm.mem_iff

theorem layersFirstOccs_spec :
    ∀ (n : ℕ) (ms : List ℕ), ms.length ≤ n →
      (layersFirstOccs ms).Nodup ∧ ∀ l, l ∈ layersFirstOccs ms ↔ l ∈ ms := by
  intro n
  induction n with
  | zero =>
      intro ms hlen
      have : ms = [] := List.eq_nil_of_length_eq_zero (Nat.le_zero.mp hlen)
      subst this
      refine ⟨?_, ?_⟩ <;> simp [layersFirstOccs]
  | succ n ih =>
      intro ms hlen
      cases ms with
      | nil => refine ⟨?_, ?_⟩ <;> simp [layersFirstOccs]
      | cons m ms =>
          have hlen1 : (ms.filter fun l2 => l2 ≠ m).length ≤ n := by
            have := List.length_filter_le (fun l2 => decide (l2 ≠ m)) ms
            simp only [List.length_cons] at hlen
            omega
          obtain ⟨hnd, hmem⟩ := ih _ hlen1
          have heq : layersFirstOccs (m :: ms)
              = m :: layersFirstOccs (ms.filter fun l2 => l2 ≠ m) := by
            simp [layersFirstOccs]
          constructor
          · rw [heq]
            refine List.nodup_cons.mpr ⟨?_, hnd⟩
            intro hm
            have := (hmem m).mp hm
            simp at this
          · intro l
            rw [heq]
            by_cases hl : l = m
            · subst hl
              simp
            · simp only [List.mem_cons, hmem l, List.mem_filter]
              constructor
              · rintro (rfl | ⟨hl2, _⟩)
                · exact Or.inl rfl
                · exact Or.inr hl2
              · rintro (rfl | hl2)
                · exact Or.inl rfl
                · exact Or.inr ⟨hl2, by simpa using hl⟩

theorem planFor_append (l : ℕ) (A B : List (ℕ × ℕ)) :
    planFor l (A ++ B) = planFor l A ++ planFor l B := by
  unfold planFor
  rw [List.filter_append, List.map_append]

theorem planFor_block (l k : ℕ) (fs : List ℕ) :
    planFor l (fs.map fun f => (k, f)) = if k = l then fs else [] := by
  unfold planFor
  rw [List.filter_map]
  by_cases hk : k = l
  · subst hk
    have : ((fun p : ℕ × ℕ => p.1 == k) ∘ fun f => (k, f)) = fun _ => true := by
      funext f
      simp
    rw [this, List.filter_true, List.map_map]
    simp
  · have : ((fun p : ℕ × ℕ => p.1 == l) ∘ fun f => (k, f)) = fun _ => false := by
      funext f
      simp [hk]
    rw [this, List.filter_false]
    simp [hk]

theorem planFor_flatMap (l : ℕ) (g : ℕ → List ℕ) :
    ∀ ks : List ℕ, ks.Nodup →
      planFor l (ks.flatMap fun k => (g k).map fun f => (k, f))
        = if l ∈ ks then g l else [] := by
  intro ks
  induction ks with
  | nil => intro _; simp [planFor]
  | cons k ks ih =>
      intro hnd
      obtain ⟨hk, hnd2⟩ := List.nodup_cons.mp hnd
      rw [List.flatMap_cons, planFor_append, planFor_block, ih hnd2]
      by_cases hkl : k = l
      · subst hkl
        simp [hk]
      · have hmc : (l ∈ k :: ks) ↔ l ∈ ks := by
          rw [List.mem_cons]
          refine ⟨?_, Or.inr⟩
          rintro (h | h)
          · exact (hkl h.symm).elim
          · exact h
        rw [if_neg hkl]
        simp only [List.nil_append]
        by_cases hl : l ∈ ks
        · simp [hl, hmc]
        · simp [hl, hmc]

theorem filtersOfLayer_nil_of_not_mem {α : Type} (l : ℕ) (ts : List (ℕ × ℕ × α))
    (h : l ∉ ts.map fun t => t.1) : filtersOfLayer l ts = [] := by
  unfold filtersOfLayer
  have : ts.filter (fun t => t.1 == l) = [] := by
    rw [List.filter_eq_nil_iff]
    intro t ht hbeq
    exact h (List.mem_map.mpr ⟨t, ht, beq_iff_eq.mp (by simpa using hbeq)⟩)
  rw [this]
  rfl

theorem sum_lookup_lengths {ν : Type} :
    ∀ l : List (ℕ × List ν), (l.map Prod.fst).Nodup →
      ((l.map Prod.fst).map fun k => ((List.lookup k l).getD []).length).sum
        = (l.map fun e => e.2.length).sum := by
  intro l
  induction l with
  | nil => intro _; rfl
  | cons hd tl ih =>
      obtain ⟨k, v⟩ := hd
      intro hnd
      simp only [List.map_cons] at hnd
      obtain ⟨hk, hnd2⟩ := List.nodup_cons.mp hnd
      simp only [List.map_cons, List.sum_cons]
      have htl : ∀ k2 ∈ tl.map Prod.fst,
          ((List.lookup k2 ((k, v) :: tl)).getD []).length
            = ((List.lookup k2 tl).getD []).length := by
        intro k2 hk2
        have hne : (k2 == k) = false := by
          simp only [beq_eq_false_iff_ne, ne_eq]
          intro hc
          exact hk (hc ▸ hk2)
        simp [List.lookup, hne]
      rw [List.map_congr_left htl, ih hnd2]
      congr 1
      simp [List.lookup]

theorem length_enumTriples {α : Type} [LinearOrderedField α] (st : FilterPrunnerState α)
    (hnd : (st.filter_ranks.map Prod.fst).Nodup) :
    (enumTriples st).length = totalFilters st := by
  unfold enumTriples
  rw [List.length_flatMap]
  have h1 : ∀ i ∈ sortedKeys st,
      (List.length ∘ fun i => (List.range (vecAt st i).length).map fun j =>
        (st.activation_to_layer i, j, (vecAt st i).getD j 0)) i = (vecAt st i).length := by
    intro i _
    simp
  rw [List.map_congr_left h1]
  have hperm : (sortedKeys st).Perm (st.filter_ranks.map Prod.fst) :=
    List.perm_insertionSort _ _
  rw [(hperm.map fun i => (vecAt st i).length).sum_eq]
  unfold vecAt
  exact sum_lookup_lengths st.filter_ranks hnd

theorem planFor_planTriples {α : Type} (l : ℕ) (ts : List (ℕ × ℕ × α)) :
    planFor l (planTriples ts) = planLayer (filtersOfLayer l ts) := by
  unfold planTriples
  obtain ⟨hnd, hmem⟩ := layersFirstOccs_spec (ts.map fun t => t.1).length _ le_rfl
  rw [planFor_flatMap l _ _ hnd]
  by_cases hl : l ∈ layersFirstOccs (ts.map fun t => t.1)
  · rw [if_pos hl]
  · rw [if_neg hl]
    rw [filtersOfLayer_nil_of_not_mem l ts fun hc => hl ((hmem l).mpr hc)]
    rfl

/-- Folding `compute_rank` over a gradient list `gs` from a state whose
`activations` list has length `grad_index + gs.length`: the k-th callback
touches exactly the entry `gs.length - 1 - k` counted from the fold's
start, i.e. entry `ai` receives the gradient `gs[gs.length - 1 - ai]`. -/
theorem foldl_compute_rank {α : Type} [LinearOrderedField α] :
    ∀ (gs : List (Tensor4 α)) (st : FilterPrunnerState α),
      st.activations.length = st.grad_index + gs.length →
      (gs.foldl compute_rank st).activations = st.activations ∧
      (gs.foldl compute_rank st).grad_index = st.grad_index + gs.length ∧
      (gs.foldl compute_rank st).activation_to_layer = st.activation_to_layer ∧
      ∀ ai : ℕ,
        List.lookup ai (gs.foldl compute_rank st).filter_ranks =
          if ai < gs.length then
            some (addVec ((List.lookup ai st.filter_ranks).getD
                    (zeros (st.activations.getD ai emptyT).chans.length))
                  (taylor (st.activations.getD ai emptyT)
                    (gs.getD (gs.length - 1 - ai) emptyT)))
          else List.lookup ai st.filter_ranks := by
  intro gs
  induction gs with
  | nil =>
      intro st _
      refine ⟨rfl, by simp, rfl, ?_⟩
      intro ai
      simp
  | cons g gs ih =>
      intro st hlen
      have hai0 : st.activations.length - st.grad_index - 1 = gs.length := by
        simp only [List.length_cons] at hlen
        omega
      set st1 := compute_rank st g with hst1
      have h1acts : st1.activations = st.activations := rfl
      have h1gi : st1.grad_index = st.grad_index + 1 := rfl
      have h1a2l : st1.activation_to_layer = st.activation_to_layer := rfl
      have h1fr : st1.filter_ranks = setK st.filter_ranks gs.length
          (addVec ((List.lookup gs.length st.filter_ranks).getD
              (zeros (st.activations.getD gs.length emptyT).chans.length))
            (taylor (st.activations.getD gs.length emptyT) g)) := by
        rw [hst1]
        unfold compute_rank
        dsimp only
        rw [hai0]
      have hlen1 : st1.activations.length = st1.grad_index + gs.length := by
        rw [h1acts, h1gi]
        simp only [List.length_cons] at hlen
        omega
      obtain ⟨ha, hg, hl2, hfr⟩ := ih st1 hlen1
      have hfold : (g :: gs).foldl compute_rank st = gs.foldl compute_rank st1 := rfl
      rw [hfold]
      refine ⟨ha.trans h1acts, ?_, hl2.trans h1a2l, ?_⟩
      · rw [hg, h1gi]
        simp only [List.length_cons]
        omega
      · intro ai
        rw [hfr ai]
        by_cases hcase : ai < gs.length
        · rw [if_pos hcase, if_pos (show ai < (g :: gs).length by
            simp only [List.length_cons]; omega)]
          rw [h1acts, h1fr, lookup_setK_ne _ _ _ _ (Nat.ne_of_lt hcase)]
          have hidx : (g :: gs).length - 1 - ai = (gs.length - 1 - ai) + 1 := by
            simp only [List.length_cons]
            omega
          rw [hidx, List.getD_cons_succ]
        · by_cases heq : ai = gs.length
          · subst heq
            rw [if_neg hcase, if_pos (show gs.length < (g :: gs).length by
              simp only [List.length_cons]; omega)]
            rw [h1fr, lookup_setK_self]
            have hidx : (g :: gs).length - 1 - gs.length = 0 := by
              simp only [List.length_cons]
              omega
            rw [hidx, List.getD_cons_zero]
          · have hgt : ¬ai < (g :: gs).length := by
              simp only [List.length_cons]
              omega
            rw [if_neg hcase, if_neg hgt, h1fr, lookup_setK_ne _ _ _ _ heq]

/-- One ranking batch (`forward` storing `acts`, then the backward pass
delivering `grads` in reverse forward order) adds to entry `ai` the Taylor
vector of activation `ai` paired with gradient `grads[L - 1 - ai]`,
zero-initialising absent entries to the activation's channel count. -/
theorem runBatch_spec {α : Type} [LinearOrderedField α] (st : FilterPrunnerState α)
    (acts grads : List (Tensor4 α)) (L : ℕ) (hA : acts.length = L) (hG : grads.length = L) :
    (runBatch st acts grads).activations = acts ∧
    (runBatch st acts grads).activation_to_layer = st.activation_to_layer ∧
    ∀ ai, List.lookup ai (runBatch st acts grads).filter_ranks =
      if ai < L then
        some (addVec ((List.lookup ai st.filter_ranks).getD
                (zeros (acts.getD ai emptyT).chans.length))
              (taylor (acts.getD ai emptyT) (grads.getD (L - 1 - ai) emptyT)))
      else List.lookup ai st.filter_ranks := by
  subst hG
  unfold runBatch
  obtain ⟨ha1, _, ha2, hfr⟩ := foldl_compute_rank grads
    { st with activations := acts, grad_index := 0 } (by simp [hA])
  exact ⟨ha1, ha2, hfr⟩

/-- Running further batches over an already-present entry appends one
Taylor summand per batch. -/
theorem runPass_entry {α : Type} [LinearOrderedField α] (L : ℕ) :
    ∀ (batches : List (List (Tensor4 α) × List (Tensor4 α)))
      (st : FilterPrunnerState α) (v : List α) (ai : ℕ), ai < L →
      (∀ b ∈ batches, b.1.length = L ∧ b.2.length = L) →
      List.lookup ai st.filter_ranks = some v →
      List.lookup ai (runPass st batches).filter_ranks =
        some (batches.foldl (fun w b => addVec w
          (taylor (b.1.getD ai emptyT) (b.2.getD (L - 1 - ai) emptyT))) v) := by
  intro batches
  induction batches with
  | nil =>
      intro st v ai _ _ hv
      simpa [runPass] using hv
  | cons b bs ih =>
      intro st v ai hai hb hv
      have hb1 := hb b (List.mem_cons_self b bs)
      have hstep : runPass st (b :: bs) = runPass (runBatch st b.1 b.2) bs := rfl
      rw [hstep]
      obtain ⟨_, _, hfr⟩ := runBatch_spec st b.1 b.2 L hb1.1 hb1.2
      have hv1 : List.lookup ai (runBatch st b.1 b.2).filter_ranks
          = some (addVec v (taylor (b.1.getD ai emptyT) (b.2.getD (L - 1 - ai) emptyT))) := by
        rw [hfr ai, if_pos hai, hv]
        rfl
      rw [List.foldl_cons]
      exact ih _ _ ai hai (fun b2 h2 => hb b2 (List.mem_cons_of_mem b h2)) hv1

/-! ### Claim theorems -/

/-- C1: for every layer `l` and every state whose selected filter indices
in that layer are distinct, the plan returned by `get_prunning_plan` (per
layer: sort ascending, subtract each index's position) is such that
sequentially erasing the adjusted indices, in plan order, from the
shrinking layer yields exactly the same layer contents as simultaneously
removing the originally selected (unadjusted) indices from the original
layer. -/
theorem get_prunning_plan_sequential_eq_simultaneous {α β : Type} [LinearOrderedField α]
    (st : FilterPrunnerState α) (num : ℕ) (l : ℕ) (L : List β)
    (hnd : (filtersOfLayer l (lowest_ranking_filters st num)).Nodup) :
    seqRemove L (planFor l (get_prunning_plan st num)) =
      removeIdxs L fun i =>
        decide (i ∈ filtersOfLayer l (lowest_ranking_filters st num)) := by
  unfold get_prunning_plan
  rw [planFor_planTriples, planLayer_seqRemove _ hnd]

/-- Witness for `get_prunning_plan_sequential_eq_simultaneous` at the rank
table `{0 ↦ [5, 1, 3], 1 ↦ [2]}` with `num = 3`: layer 0 selects original
filters `{1, 2}`, the plan holds adjusted pairs `(0,1), (0,1)`, and both
removal orders leave `[10]` of the layer `[10, 20, 30]`. -/
theorem get_prunning_plan_sequential_eq_simultaneous_witness :
    (filtersOfLayer 0 (lowest_ranking_filters
        (FilterPrunnerState.mk [(0, [(5 : ℚ), 1, 3]), (1, [2])] [] 0 fun i => i) 3)).Nodup ∧
    seqRemove ([10, 20, 30] : List ℕ) (planFor 0 (get_prunning_plan
        (FilterPrunnerState.mk [(0, [(5 : ℚ), 1, 3]), (1, [2])] [] 0 fun i => i) 3)) =
      removeIdxs ([10, 20, 30] : List ℕ) (fun i =>
        decide (i ∈ filtersOfLayer 0 (lowest_ranking_filters
          (FilterPrunnerState.mk [(0, [(5 : ℚ), 1, 3]), (1, [2])] [] 0 fun i => i) 3))) :=
  ⟨by decide, get_prunning_plan_sequential_eq_simultaneous _ 3 0 _ (by decide)⟩

/-- C2: `lowest_ranking_filters(num)` returns `min num total` triples
(`total` the number of filters in the rank table), sorted ascending by
score; in the decorated selection two entries of equal score appear in
strictly increasing enumeration order (the `nsmallest` tie-break); and the
result is determined by `filter_ranks` and `activation_to_layer` alone, so
identical rank tables give identical lists. -/
theorem lowest_ranking_filters_spec {α : Type} [LinearOrderedField α]
    (st st' : FilterPrunnerState α) (num : ℕ)
    (hnd : (st.filter_ranks.map Prod.fst).Nodup)
    (hfr : st.filter_ranks = st'.filter_ranks)
    (ha2l : st.activation_to_layer = st'.activation_to_layer) :
    (lowest_ranking_filters st num).length = min num (totalFilters st) ∧
    (lowest_ranking_filters st num).Pairwise (fun a b => a.2.2 ≤ b.2.2) ∧
    (lrfDecorated st num).Pairwise
      (fun a b => a.2.2.2 < b.2.2.2 ∨ (a.2.2.2 = b.2.2.2 ∧ a.1 < b.1)) ∧
    lowest_ranking_filters st num = lowest_ranking_filters st' num := by
  have hsorted : List.Sorted decoR ((enumTriples st).enum.insertionSort decoR) :=
    List.sorted_insertionSort decoR _
  have hperm : ((enumTriples st).enum.insertionSort decoR).Perm (enumTriples st).enum :=
    List.perm_insertionSort _ _
  have hpw : (lrfDecorated st num).Pairwise decoR :=
    List.Pairwise.sublist (List.take_sublist num _) hsorted
  refine ⟨?_, ?_, ?_, ?_⟩
  · unfold lowest_ranking_filters lrfDecorated
    rw [List.length_map, List.length_take, hperm.length_eq, List.enum_length,
      length_enumTriples st hnd]
  · unfold lowest_ranking_filters
    refine List.pairwise_map.mpr ?_
    refine hpw.imp ?_
    intro a b hd
    rcases hd with h | ⟨he, _⟩
    · exact h.le
    · exact he.le
  · have hnodup_fst : ((enumTriples st).enum.insertionSort decoR).Pairwise
        fun a b => a.1 ≠ b.1 := by
      have h1 : ((enumTriples st).enum.map Prod.fst).Nodup := by
        rw [List.enum_map_fst]
        exact List.nodup_range _
      have h2 : (((enumTriples st).enum.insertionSort decoR).map Prod.fst).Nodup :=
        h1.perm (hperm.map Prod.fst).symm
      exact List.pairwise_map.mp h2
    refine List.Pairwise.sublist (List.take_sublist num _) ?_
    refine (hsorted.and hnodup_fst).imp ?_
    rintro a b ⟨hd, hne⟩
    rcases hd with h | ⟨he, hle⟩
    · exact Or.inl h
    · exact Or.inr ⟨he, lt_of_le_of_ne hle hne⟩
  · have henum : enumTriples st = enumTriples st' := by
      unfold enumTriples sortedKeys vecAt
      rw [hfr, ha2l]
    unfold lowest_ranking_filters lrfDecorated
    rw [henum]

/-- Witness for `lowest_ranking_filters_spec` on `sampleState` (scores
`{1 ↦ [5, 2], 0 ↦ [2]}`, `num = 2`; note the tie between the two scores 2)
and `sampleState2`, which differs only in activation bookkeeping. -/
theorem lowest_ranking_filters_spec_witness :
    ((sampleState.filter_ranks.map Prod.fst).Nodup ∧
      sampleState.filter_ranks = sampleState2.filter_ranks ∧
      sampleState.activation_to_layer = sampleState2.activation_to_layer) ∧
    (lowest_ranking_filters sampleState 2).length = min 2 (totalFilters sampleState) ∧
    (lowest_ranking_filters sampleState 2).Pairwise (fun a b => a.2.2 ≤ b.2.2) ∧
    (lrfDecorated sampleState 2).Pairwise
      (fun a b => a.2.2.2 < b.2.2.2 ∨ (a.2.2.2 = b.2.2.2 ∧ a.1 < b.1)) ∧
    lowest_ranking_filters sampleState 2 = lowest_ranking_filters sampleState2 2 :=
  ⟨⟨by decide, rfl, rfl⟩,
    lowest_ranking_filters_spec sampleState sampleState2 2 (by decide) rfl rfl⟩

/-- C3: for every rank table in which every layer's score vector has at
least one nonzero entry, `normalize_ranks_per_layer` replaces each vector
by the elementwise absolute value of the original divided by the
original's L2 norm, and every resulting vector has all entries
non-negative and L2 norm exactly 1. -/
theorem normalize_ranks_unit_norm_nonneg (st : FilterPrunnerState ℝ)
    (h : ∀ e ∈ st.filter_ranks, ∃ x ∈ e.2, x ≠ 0) :
    (normalize_ranks_per_layer st).filter_ranks =
      (st.filter_ranks.map fun e => (e.1, e.2.map fun x => |x| / Real.sqrt (sumSq e.2))) ∧
    ∀ e ∈ (normalize_ranks_per_layer st).filter_ranks,
      (∀ y ∈ e.2, 0 ≤ y) ∧ Real.sqrt (sumSq e.2) = 1 := by
  constructor
  · unfold normalize_ranks_per_layer
    simp only [List.map_inj_left]
    intro e _
    rw [normVec_eq]
  · intro e he
    unfold normalize_ranks_per_layer at he
    simp only at he
    obtain ⟨e₀, he₀, rfl⟩ := List.mem_map.mp he
    have hnz : ∃ x ∈ e₀.2, x ≠ 0 := h e₀ he₀
    constructor
    · intro y hy
      rw [normVec_eq] at hy
      obtain ⟨x, _, rfl⟩ := List.mem_map.mp hy
      exact div_nonneg (abs_nonneg x) (Real.sqrt_nonneg _)
    · rw [sumSq_normVec e₀.2 hnz, Real.sqrt_one]

/-- Witness for `normalize_ranks_unit_norm_nonneg` at the one-layer table
`{0 ↦ [3, -4]}` (L2 norm 5). -/
theorem normalize_ranks_unit_norm_nonneg_witness :
    (∀ e ∈ (FilterPrunnerState.mk [(0, [(3 : ℝ), -4])] [] 0 fun _ => 0).filter_ranks,
        ∃ x ∈ e.2, x ≠ 0) ∧
    ((normalize_ranks_per_layer
        (FilterPrunnerState.mk [(0, [(3 : ℝ), -4])] [] 0 fun _ => 0)).filter_ranks =
      ((FilterPrunnerState.mk [(0, [(3 : ℝ), -4])] [] 0 fun _ => 0).filter_ranks.map
        fun e => (e.1, e.2.map fun x => |x| / Real.sqrt (sumSq e.2))) ∧
    ∀ e ∈ (normalize_ranks_per_layer
        (FilterPrunnerState.mk [(0, [(3 : ℝ), -4])] [] 0 fun _ => 0)).filter_ranks,
      (∀ y ∈ e.2, 0 ≤ y) ∧ Real.sqrt (sumSq e.2) = 1) := by
  have h : ∀ e ∈ (FilterPrunnerState.mk [(0, [(3 : ℝ), -4])] [] 0 fun _ => 0).filter_ranks,
      ∃ x ∈ e.2, x ≠ 0 := by
    intro e he
    simp only [List.mem_singleton] at he
    subst he
    exact ⟨3, by norm_num⟩
  exact ⟨h, normalize_ranks_unit_norm_nonneg _ h⟩

/-- C4: over a ranking pass started from a reset table, with `L` conv
layers of channel counts `c i`: the k-th gradient callback of each batch
pairs its gradient with the (L−1−k)-th recorded activation — equivalently,
entry `i` receives the gradient arriving (L−1−i)-th — the per-filter
importance is the (batch, height, width)-mean of activation × gradient,
and each entry, zero-initialised to length `c i` on first touch, ends as
the sum of its per-batch importance vectors. -/
theorem compute_rank_accumulates_pass {α : Type} [LinearOrderedField α]
    (st : FilterPrunnerState α) (L : ℕ) (c : ℕ → ℕ)
    (batches : List (List (Tensor4 α) × List (Tensor4 α)))
    (hne : batches ≠ [])
    (hshape : ∀ bt ∈ batches, bt.1.length = L ∧ bt.2.length = L ∧
      ∀ i, i < L → (bt.1.getD i emptyT).chans.length = c i ∧
        (bt.2.getD (L - 1 - i) emptyT).chans.length = c i) :
    ∀ i, i < L →
      List.lookup i (runPass (FilterPrunner.reset st) batches).filter_ranks =
        some (vecSum (c i) (batches.map fun bt =>
          taylor (bt.1.getD i emptyT) (bt.2.getD (L - 1 - i) emptyT))) := by
  intro i hi
  cases batches with
  | nil => exact absurd rfl hne
  | cons b bs =>
      have hsb := hshape b (List.mem_cons_self b bs)
      have hlens : ∀ bt ∈ b :: bs, bt.1.length = L ∧ bt.2.length = L :=
        fun bt h => ⟨(hshape bt h).1, (hshape bt h).2.1⟩
      have hstep : runPass (FilterPrunner.reset st) (b :: bs)
          = runPass (runBatch (FilterPrunner.reset st) b.1 b.2) bs := rfl
      obtain ⟨_, _, hfr⟩ :=
        runBatch_spec (FilterPrunner.reset st) b.1 b.2 L hsb.1 hsb.2.1
      have hv1 : List.lookup i (runBatch (FilterPrunner.reset st) b.1 b.2).filter_ranks
          = some (addVec (zeros (c i))
              (taylor (b.1.getD i emptyT) (b.2.getD (L - 1 - i) emptyT))) := by
        rw [hfr i, if_pos hi]
        have hnone : List.lookup i (FilterPrunner.reset st).filter_ranks
            = (none : Option (List α)) := rfl
        rw [hnone, (hsb.2.2 i hi).1]
        rfl
      rw [hstep]
      rw [runPass_entry L bs (runBatch (FilterPrunner.reset st) b.1 b.2) _ i hi
        (fun bt h => hlens bt (List.mem_cons_of_mem b h)) hv1]
      congr 1
      unfold vecSum
      rw [List.map_cons, List.foldl_cons, List.foldl_map]

/-- Witness for `compute_rank_accumulates_pass`: one conv layer (`L = 1`,
one channel), two batches; the accumulated entry is
`[(2·1 + 4·3)/2 + (1·2 + 1·2)/2] = [9]`. -/
theorem compute_rank_accumulates_pass_witness :
    (sampleBatches ≠ []) ∧
    (∀ bt ∈ sampleBatches,
      bt.1.length = 1 ∧ bt.2.length = 1 ∧
      ∀ i, i < 1 → (bt.1.getD i emptyT).chans.length = 1 ∧
        (bt.2.getD (1 - 1 - i) emptyT).chans.length = 1) ∧
    ∀ i, i < 1 →
      List.lookup i
          (runPass (FilterPrunner.reset emptyPrunnerState) sampleBatches).filter_ranks =
        some (vecSum 1 (sampleBatches.map fun bt =>
          taylor (bt.1.getD i emptyT) (bt.2.getD (1 - 1 - i) emptyT))) :=
  ⟨by decide, by decide,
    compute_rank_accumulates_pass emptyPrunnerState 1
      (fun _ => 1) sampleBatches (by decide) (by decide)⟩

/-- C5: `FilterPrunner.forward` never reaches its return statement on a
backbone containing at least one convolutional layer: `activation_index`
is initialised to the empty *list*, so the assignment
`self.activation_to_layer[activation_index] = layer` at the first
convolutional layer raises `TypeError: unhashable type: 'list'`. -/
theorem forward_raises_type_error (mods : List Module)
    (h : ∃ m ∈ mods, m.isConv = true) :
    FilterPrunner.forward mods = .error "TypeError: unhashable type: list" :=
  forwardGo_raises mods 0 _ [] rfl h

/-- Witness for `forward_raises_type_error` on a one-conv-layer backbone. -/
theorem forward_raises_type_error_witness :
    (∃ m ∈ [Module.conv2d 64], m.isConv = true) ∧
    FilterPrunner.forward [Module.conv2d 64] =
      .error "TypeError: unhashable type: list" :=
  ⟨⟨Module.conv2d 64, by decide⟩,
    forward_raises_type_error [Module.conv2d 64] ⟨Module.conv2d 64, by decide⟩⟩

/-- C6: in ranking mode `train_batch` always raises before reaching
`backward()` — the loss line reads `sekf.criterion(...)` and `sekf` is not
a name in scope — so no ranking-mode batch ever completes (in particular
`optimizer.step()` is not reached); the non-ranking branch runs forward,
backward and the optimizer step. -/
theorem train_batch_ranking_branch_raises (fw : Except String Unit) :
    (∃ e, train_batch fw true = .error e) ∧
    train_batch fw false =
      .ok [TrainEvt.zero_grad, TrainEvt.model_forward, TrainEvt.loss_backward,
           TrainEvt.optimizer_step] := by
  constructor
  · cases fw with
    | error e => exact ⟨e, rfl⟩
    | ok u => exact ⟨"NameError: name sekf is not defined", by rfl⟩
  · rfl

/-- C7: `total_num_filters` returns 0 on every backbone — the loop body
assigns its sum to the misspelled variable `fitlers` and never updates
`filters` — so the pruning budget computes 0 iterations, and the returned
value disagrees with the spec's sum of `out_channels` whenever the
backbone has any filter at all. -/
theorem total_num_filters_always_zero (mods : List Module) :
    total_num_filters mods = 0 ∧ pruneIterations mods = 0 ∧
      (specTotalFilters mods = 0 ∨ total_num_filters mods ≠ specTotalFilters mods) := by
  have h : total_num_filters mods = 0 := by
    unfold total_num_filters
    rw [total_num_filters_foldl]
  refine ⟨h, ?_, ?_⟩
  · unfold pruneIterations
    rw [h]
  · by_cases hs : specTotalFilters mods = 0
    · exact Or.inl hs
    · refine Or.inr ?_
      rw [h]
      exact fun he => hs he.symm

/-- C8: the object `prune` hands to `torch.save` is the *bound method*
`model.state_dict` (the call parentheses are missing), never the parameter
dictionary `model.state_dict()` the claim describes. -/
theorem prune_saves_bound_method_not_state_dict (m : TorchModel) :
    pruneSavedObject m = PyObj.boundMethod m.params "state_dict" ∧
    ∀ entries, pruneSavedObject m ≠ PyObj.dict entries := by
  refine ⟨rfl, ?_⟩
  intro entries h
  simp [pruneSavedObject, stateDictAttr] at h

/-- C9: `get_candidates_to_prune` empties the rank table (`reset`) before
the ranking epoch runs, so its entire outcome is independent of whatever
`filter_ranks` held when the method was entered. -/
theorem ranking_epoch_starts_from_empty_table
    (rankingEpoch : FilterPrunnerState ℝ → FilterPrunnerState ℝ)
    (st st' : FilterPrunnerState ℝ) (num : ℕ)
    (h1 : st.activations = st'.activations)
    (h2 : st.grad_index = st'.grad_index)
    (h3 : st.activation_to_layer = st'.activation_to_layer) :
    (FilterPrunner.reset st).filter_ranks = [] ∧
    get_candidates_to_prune rankingEpoch st num =
      get_candidates_to_prune rankingEpoch st' num := by
  refine ⟨rfl, ?_⟩
  have hr : FilterPrunner.reset st = FilterPrunner.reset st' := by
    unfold FilterPrunner.reset
    cases st
    cases st'
    simp_all
  unfold get_candidates_to_prune
  rw [hr]

/-- Witness for `ranking_epoch_starts_from_empty_table`: two states that
differ only in their accumulated rank tables yield identical candidate
computations. -/
theorem ranking_epoch_starts_from_empty_table_witness :
    (FilterPrunner.reset
        (FilterPrunnerState.mk [(0, [(1 : ℝ)])] [] 0 fun i => i)).filter_ranks = [] ∧
    get_candidates_to_prune id
        (FilterPrunnerState.mk [(0, [(1 : ℝ)])] [] 0 fun i => i) 512 =
      get_candidates_to_prune id
        (FilterPrunnerState.mk [] [] 0 fun i => i) 512 :=
  ranking_epoch_starts_from_empty_table id
    (FilterPrunnerState.mk [(0, [(1 : ℝ)])] [] 0 fun i => i)
    (FilterPrunnerState.mk [] [] 0 fun i => i) 512 rfl rfl rfl

/-- C10: after the constructor's freeze loop — which assigns the misspelled
attribute `required_grad` — every backbone parameter still has
`requires_grad = True`, so the backbone is never actually frozen. -/
theorem backbone_requires_grad_unchanged (ps : List PyParam)
    (h : ∀ p ∈ ps, getattrB p "requires_grad" = some true) :
    ∀ q ∈ modelInitFreeze ps, getattrB q "requires_grad" = some true := by
  intro q hq
  unfold modelInitFreeze at hq
  obtain ⟨p, hp, rfl⟩ := List.mem_map.mp hq
  unfold freezeLoopBody setattrB getattrB
  rw [lookup_setK_ne p.attrs "required_grad" "requires_grad" false (by decide)]
  exact h p hp

/-- Witness for `backbone_requires_grad_unchanged` on a single pretrained
parameter. -/
theorem backbone_requires_grad_unchanged_witness :
    (∀ p ∈ [pretrainedParam], getattrB p "requires_grad" = some true) ∧
    ∀ q ∈ modelInitFreeze [pretrainedParam], getattrB q "requires_grad" = some true :=
  ⟨by decide, backbone_requires_grad_unchanged [pretrainedParam] (by decide)⟩

end Finetune
